import Mathlib

/-!
Verification of the Knowledge-Base Retrieval and Agent-Response engine of the
llm-support-agent repository, together with its web-client request layer.

The client code (ui/src/lib/api.ts, ui/src/pages/KB.tsx, and the auth store
in ui/src/router.tsx) is embedded directly from the TypeScript source.  The
backend engine (chunk store, similarity
search, escalation policy, agent orchestrator) ships as a separate Python
service whose code is not part of this tree; its operations are modelled from
the specification (spec.md sections 3, 4.2, 4.3, 4.6, 4.7) and each such
definition is marked accordingly in its doc comment.

JavaScript strings are modelled as Lean String where only whole-string
operations occur, and as List Char where the code manipulates characters
(splitting, trimming, case folding), so that every definition stays
executable.
-/

/-! ### Generic string and character helpers -/

/-- JavaScript String.prototype.includes, on character lists: some suffix of
the haystack starts with the needle. -/
def listContains (hay needle : List Char) : Bool :=
  needle.isPrefixOf hay ||
    match hay with
    | [] => false
    | _ :: t => listContains t needle

/-- JavaScript String.prototype.includes on Lean strings. -/
def strContains (hay needle : String) : Bool :=
  listContains hay.toList needle.toList

theorem listContains_of_isPrefixOf {hay needle : List Char}
    (h : needle.isPrefixOf hay = true) : listContains hay needle = true := by
  cases hay with
  | nil => simpa [listContains] using h
  | cons a t => simp [listContains, h]

theorem listContains_append_left (pre tail : List Char) :
    listContains (pre ++ tail) pre = true := by
  apply listContains_of_isPrefixOf
  rw [ List.isPrefixOf_iff_prefix]
  exact List.prefix_append pre tail

/-! ### Embedding of ui/src/lib/api.ts -/

/-- Client authentication state held in the useAuth store (module store/auth,
in ui/src/router.tsx).  Only the fields the embedded request helper touches
are modelled: the token and the tenant.  The apiBase field only feeds the URL
of the network call, which is outside the model (the request embedding
receives the server response directly), so it is omitted. -/
structure AuthState where
  token : Option String
  tenant : Nat
deriving Repr, DecidableEq

/-- Embedding of the reset action of the useAuth store (store/auth, in
ui/src/router.tsx): it removes the persisted token and sets token to null,
leaving the tenant untouched.  Both store variants in the tree agree on
these modelled fields; the localStorage removal is the persistence of the
very same token field, and the second variant additionally restores the
unmodelled apiBase to its default. -/
def resetAuth (s : AuthState) : AuthState :=
  { s with token := none }

/-- The parts of a fetch Response that the request helper in api.ts inspects:
the numeric status, the status text, and the detail field extracted from the
JSON body (empty when the body is absent or unparsable). -/
structure HttpResponse where
  status : Nat
  statusText : String
  detail : String
deriving Repr, DecidableEq

/-- Response.ok of the Fetch API: status in the range 200 to 299. -/
def HttpResponse.ok (r : HttpResponse) : Bool :=
  decide (200 ≤ r.status) && decide (r.status ≤ 299)

/-- The message of the Error thrown by the request helper for a non-OK
response, following api.ts lines 24 to 47: status 401 gets a dedicated
message (session expiry, detail echo, or a generic re-login hint), every
other status gets the generic HTTP line. -/
def errorMessage (r : HttpResponse) : String :=
  if r.status = 401 then
    if strContains r.detail.toLower "signature has expired" then
      "Сессия истекла — авторизуйтесь снова."
    else if r.detail ≠ "" then
      "HTTP 401 Unauthorized: " ++ r.detail
    else
      "Не удалось авторизоваться. Повторите вход."
  else
    "HTTP " ++ toString r.status ++ " " ++ r.statusText ++
      (if r.detail ≠ "" then ": " ++ r.detail else "")

/-- Embedding of the shared request helper (api.ts lines 15 to 53).  The
network call itself is outside the model: the function receives the response
the server produced and the payload its body parses to, and returns the auth
state the call leaves behind together with either the payload or the thrown
error message.  On a 401 the auth store is reset before the Error is thrown;
any other non-OK status throws without touching the auth state. -/
def request {T : Type} (st : AuthState) (r : HttpResponse) (payload : T) :
    AuthState × Except String T :=
  if r.ok then (st, Except.ok payload)
  else if r.status = 401 then (resetAuth st, Except.error (errorMessage r))
  else (st, Except.error (errorMessage r))

/-- Embedding of tryBoth (api.ts lines 173 to 184): run the request against
the primary endpoint; if it throws with a message containing the text
HTTP 404, re-issue the identical request against the secondary endpoint,
otherwise propagate the primary outcome unchanged. -/
def tryBoth {T : Type} (st : AuthState) (primary : HttpResponse) (pPayload : T)
    (secondary : HttpResponse) (sPayload : T) : AuthState × Except String T :=
  match request st primary pPayload with
  | (st1, Except.ok v) => (st1, Except.ok v)
  | (st1, Except.error m) =>
      if strContains m "HTTP 404" then request st1 secondary sPayload
      else (st1, Except.error m)

theorem strContains_append_left (pre rest : String) :
    strContains (pre ++ rest) pre = true := by
  unfold strContains
  have h : (pre ++ rest).toList = pre.toList ++ rest.toList := String.data_append pre rest
  rw [h]
  exact listContains_append_left pre.toList rest.toList

/-- A non-OK response with status 404 always produces an error message
containing the text HTTP 404, because the generic branch of errorMessage
starts the message with the status line. -/
theorem errorMessage_contains_404 (r : HttpResponse) (h404 : r.status = 404) :
    strContains (errorMessage r) "HTTP 404" = true := by
  unfold errorMessage
  rw [if_neg (by rw [h404]; decide), h404]
  have e1 : "HTTP " ++ toString (404 : Nat) = "HTTP 404" := rfl
  rw [show ("HTTP " ++ toString (404 : Nat) ++ " " ++ r.statusText ++
      (if r.detail ≠ "" then ": " ++ r.detail else "")) =
      "HTTP 404" ++ (" " ++ (r.statusText ++
      (if r.detail ≠ "" then ": " ++ r.detail else ""))) by
    rw [← e1]; simp only [String.append_assoc]]
  exact strContains_append_left _ _

/-- Claim C8: for every API call made through the shared request helper, a
response with HTTP status 401 resets the client authentication store (the
token is cleared) before an Error is thrown, whereas a non-OK response with
any other status throws an Error without touching the authentication
state. -/
theorem request_auth_reset {T : Type} (st : AuthState) (r : HttpResponse) (payload : T)
    (hok : r.ok = false) :
    (request st r payload).2 = Except.error (errorMessage r) ∧
    (r.status = 401 →
      (request st r payload).1 = resetAuth st ∧ (request st r payload).1.token = none) ∧
    (r.status ≠ 401 → (request st r payload).1 = st) := by
  by_cases h : r.status = 401 <;> simp [request, hok, h, resetAuth]

theorem request_auth_reset_witness :
    (request (AuthState.mk (some "tok") 1) (HttpResponse.mk 401 "Unauthorized" "") (0 : Nat)).1.token
      = none ∧
    (request (AuthState.mk (some "tok") 1) (HttpResponse.mk 500 "Server Error" "") (0 : Nat)).1
      = AuthState.mk (some "tok") 1 :=
  ⟨((request_auth_reset (AuthState.mk (some "tok") 1) (HttpResponse.mk 401 "Unauthorized" "") 0
      (by decide)).2.1 rfl).2,
   (request_auth_reset (AuthState.mk (some "tok") 1) (HttpResponse.mk 500 "Server Error" "") 0
      (by decide)).2.2 (by decide)⟩

/-- Claim C9: the ask helper first issues the request against the primary
endpoint and re-issues the identical request against the secondary endpoint
exactly when the first attempt fails with an error whose message contains
HTTP 404 (which a 404 status always produces); any other failure of the
first attempt is rethrown unchanged, and a successful response from the
first endpoint is returned as-is. -/
theorem tryBoth_fallback {T : Type} (st : AuthState) (primary : HttpResponse) (pPayload : T)
    (secondary : HttpResponse) (sPayload : T) :
    (primary.ok = true →
      tryBoth st primary pPayload secondary sPayload = (st, Except.ok pPayload)) ∧
    (primary.ok = false → strContains (errorMessage primary) "HTTP 404" = true →
      tryBoth st primary pPayload secondary sPayload =
        request (if primary.status = 401 then resetAuth st else st) secondary sPayload) ∧
    (primary.ok = false → strContains (errorMessage primary) "HTTP 404" = false →
      tryBoth st primary pPayload secondary sPayload =
        ((if primary.status = 401 then resetAuth st else st),
          Except.error (errorMessage primary))) ∧
    (primary.status = 404 → strContains (errorMessage primary) "HTTP 404" = true) := by
  refine ⟨?_, ?_, ?_, fun h404 => errorMessage_contains_404 primary h404⟩
  · intro hok
    simp [tryBoth, request, hok]
  · intro hok hc
    by_cases h : primary.status = 401 <;> simp [tryBoth, request, hok, h, hc]
  · intro hok hc
    by_cases h : primary.status = 401 <;> simp [tryBoth, request, hok, h, hc]

theorem tryBoth_fallback_witness :
    tryBoth (AuthState.mk (some "tok") 1) (HttpResponse.mk 404 "Not Found" "") (0 : Nat)
        (HttpResponse.mk 200 "OK" "") 7 =
      (AuthState.mk (some "tok") 1, Except.ok 7) := by
  have h := tryBoth_fallback (AuthState.mk (some "tok") 1) (HttpResponse.mk 404 "Not Found" "")
    (0 : Nat) (HttpResponse.mk 200 "OK" "") 7
  exact (h.2.1 (by decide) (h.2.2.2 rfl)).trans (by rfl)

/-! ### Embedding of parseTags (ui/src/pages/KB.tsx lines 270 to 276)

The tag strings handled here are modelled as lists of characters, so the
split, trim and case-fold steps of the JavaScript code are all structural. -/

/-- JavaScript String.prototype.trim: whitespace is removed from both ends. -/
def trimChars (l : List Char) : List Char :=
  ((l.dropWhile Char.isWhitespace).reverse.dropWhile Char.isWhitespace).reverse

/-- JavaScript String.prototype.split on a comma. -/
def splitOnComma : List Char → List (List Char)
  | [] => [[]]
  | c :: cs =>
      if c = ',' then [] :: splitOnComma cs
      else
        match splitOnComma cs with
        | [] => [[c]]
        | g :: gs => (c :: g) :: gs

/-- The comma-join of a list of strings (Array.prototype.join with ","). -/
def joinComma : List (List Char) → List Char
  | [] => []
  | [p] => p
  | p :: q :: r => p ++ ',' :: joinComma (q :: r)

/-- Deduplication via new Set, with the set of already seen elements made
explicit: keeps the first occurrence of each element, in encounter order. -/
def jsDedupAux {α : Type} [DecidableEq α] (seen : List α) : List α → List α
  | [] => []
  | x :: xs => if x ∈ seen then jsDedupAux seen xs else x :: jsDedupAux (x :: seen) xs

/-- Deduplication via new Set: keeps the first occurrence of each element,
in encounter order. -/
def jsDedup {α : Type} [DecidableEq α] (l : List α) : List α :=
  jsDedupAux [] l

/-- Lexicographic comparison of character lists by code point, the order
Array.prototype.sort applies to strings. -/
def lexLeB : List Char → List Char → Bool
  | [], _ => true
  | _ :: _, [] => false
  | a :: as, b :: bs => if a = b then lexLeB as bs else decide (a < b)

/-- The lexicographic order as a relation. -/
def lexLe (a b : List Char) : Prop := lexLeB a b = true

instance : DecidableRel lexLe := fun a b => by unfold lexLe; infer_instance

/-- One tag as the map over the split produces it: trimmed, then lowercased. -/
def cleanTag (t : List Char) : List Char :=
  (trimChars t).map Char.toLower

/-- The intermediate tags value of parseTags: split the input on commas, trim
and lowercase every piece, and drop the empty pieces. -/
def cleanedTags (value : List Char) : List (List Char) :=
  ((splitOnComma value).map cleanTag).filter fun t => decide (t ≠ [])

/-- Embedding of parseTags (KB.tsx lines 270 to 276): split the input on
commas, trim and lowercase every piece, drop empty pieces, and return the
deduplicated, sorted result, or none when nothing remains. -/
def parseTags (value : List Char) : Option (List (List Char)) :=
  if cleanedTags value = [] then none
  else some (List.insertionSort lexLe (jsDedup (cleanedTags value)))

/-! ### Character-level facts about Char.toLower -/

theorem char_toNat_ofNat {n : Nat} (h : n.isValidChar) : (Char.ofNat n).toNat = n := by
  unfold Char.ofNat
  rw [dif_pos h]
  rfl

theorem char_eq_of_toNat_eq {c d : Char} (h : c.toNat = d.toNat) : c = d := by
  apply Char.eq_of_val_eq
  apply UInt32.eq_of_toBitVec_eq
  exact BitVec.eq_of_toNat_eq h

theorem toLower_toNat (c : Char) :
    (Char.toLower c).toNat =
      if 65 ≤ c.toNat ∧ c.toNat ≤ 90 then c.toNat + 32 else c.toNat := by
  unfold Char.toLower
  by_cases h : 65 ≤ c.toNat ∧ c.toNat ≤ 90
  · rw [if_pos h, if_pos h]
    exact char_toNat_ofNat (Or.inl (by omega))
  · rw [if_neg h, if_neg h]

theorem isWhitespace_iff_toNat (c : Char) :
    c.isWhitespace = true ↔
      (c.toNat = 32 ∨ c.toNat = 9 ∨ c.toNat = 13 ∨ c.toNat = 10) := by
  unfold Char.isWhitespace
  constructor
  · intro h
    simp only [Bool.or_eq_true, decide_eq_true_eq] at h
    rcases h with ((h | h) | h) | h <;> rw [h] <;> simp [Char.toNat]
  · intro h
    have he : c = ' ' ∨ c = '\t' ∨ c = '\x0d' ∨ c = '\n' := by
      rcases h with h | h | h | h
      · exact Or.inl (char_eq_of_toNat_eq (by rw [h]; rfl))
      · exact Or.inr (Or.inl (char_eq_of_toNat_eq (by rw [h]; rfl)))
      · exact Or.inr (Or.inr (Or.inl (char_eq_of_toNat_eq (by rw [h]; rfl))))
      · exact Or.inr (Or.inr (Or.inr (char_eq_of_toNat_eq (by rw [h]; rfl))))
    rcases he with h | h | h | h <;> rw [h] <;> decide

theorem isWhitespace_eq_false_of_toNat {c : Char}
    (h : ¬(c.toNat = 32 ∨ c.toNat = 9 ∨ c.toNat = 13 ∨ c.toNat = 10)) :
    c.isWhitespace = false := by
  cases hws : c.isWhitespace
  · rfl
  · exact absurd ((isWhitespace_iff_toNat c).mp hws) h

theorem isWhitespace_toLower (c : Char) :
    (Char.toLower c).isWhitespace = c.isWhitespace := by
  have ht := toLower_toNat c
  by_cases h : 65 ≤ c.toNat ∧ c.toNat ≤ 90
  · rw [if_pos h] at ht
    rw [isWhitespace_eq_false_of_toNat (by omega),
      isWhitespace_eq_false_of_toNat (c := c) (by omega)]
  · have heq : Char.toLower c = c := by
      unfold Char.toLower
      rw [if_neg h]
    rw [heq]

theorem toLower_toLower (c : Char) :
    Char.toLower (Char.toLower c) = Char.toLower c := by
  apply char_eq_of_toNat_eq
  have h1 := toLower_toNat c
  have h2 := toLower_toNat (Char.toLower c)
  by_cases h : 65 ≤ c.toNat ∧ c.toNat ≤ 90
  · rw [if_pos h] at h1
    rw [h1] at h2
    rw [if_neg (by omega)] at h2
    rw [h2, h1]
  · rw [if_neg h] at h1
    rw [h1, if_neg h] at h2
    rw [h2, h1]

theorem toLower_eq_comma {c : Char} (h : Char.toLower c = ',') : c = ',' := by
  have ht := toLower_toNat c
  by_cases hr : 65 ≤ c.toNat ∧ c.toNat ≤ 90
  · rw [if_pos hr, h] at ht
    rw [show Char.toNat ',' = 44 from rfl] at ht
    omega
  · have : Char.toLower c = c := by
      unfold Char.toLower
      rw [if_neg hr]
    rw [← this, h]

/-! ### The lexicographic order is total and transitive -/

theorem lexLeB_total : ∀ a b : List Char, lexLeB a b = true ∨ lexLeB b a = true
  | [], _ => Or.inl rfl
  | _ :: _, [] => Or.inr rfl
  | a :: as, b :: bs => by
      by_cases h : a = b
      · subst h
        rcases lexLeB_total as bs with hl | hr
        · exact Or.inl (by simp [lexLeB, hl])
        · exact Or.inr (by simp [lexLeB, hr])
      · rcases lt_or_gt_of_ne h with hlt | hgt
        · exact Or.inl (by simp [lexLeB, h, hlt])
        · exact Or.inr (by simp [lexLeB, Ne.symm h, hgt])

theorem lexLeB_trans :
    ∀ a b c : List Char, lexLeB a b = true → lexLeB b c = true → lexLeB a c = true
  | [], _, _ => fun _ _ => rfl
  | _ :: _, [], _ => fun h _ => by simp [lexLeB] at h
  | _ :: _, _ :: _, [] => fun _ h => by simp [lexLeB] at h
  | a :: as, b :: bs, c :: cs => by
      intro hab hbc
      by_cases h1 : a = b <;> by_cases h2 : b = c
      · subst h1; subst h2
        simp only [lexLeB, if_pos rfl] at hab hbc ⊢
        exact lexLeB_trans as bs cs hab hbc
      · subst h1
        simp only [lexLeB, if_neg h2] at hbc ⊢
        exact hbc
      · subst h2
        simp only [lexLeB, if_neg h1] at hab ⊢
        exact hab
      · simp only [lexLeB, if_neg h1, decide_eq_true_eq] at hab
        simp only [lexLeB, if_neg h2, decide_eq_true_eq] at hbc
        have hac : a < c := lt_trans hab hbc
        simp [lexLeB, ne_of_lt hac, hac]

instance : IsTotal (List Char) lexLe :=
  ⟨fun a b => lexLeB_total a b⟩

instance : IsTrans (List Char) lexLe :=
  ⟨fun a b c => lexLeB_trans a b c⟩

/-! ### jsDedup produces the duplicate-free sublist of first occurrences -/

theorem jsDedupAux_sub {α : Type} [DecidableEq α] :
    ∀ (seen l : List α), ∀ a ∈ jsDedupAux seen l, a ∈ l
  | _, [], a, ha => by simp [jsDedupAux] at ha
  | seen, x :: xs, a, ha => by
      rw [jsDedupAux] at ha
      by_cases hx : x ∈ seen
      · rw [if_pos hx] at ha
        exact List.mem_cons_of_mem x (jsDedupAux_sub seen xs a ha)
      · rw [if_neg hx] at ha
        rcases List.mem_cons.mp ha with h | h
        · exact h ▸ List.mem_cons_self x xs
        · exact List.mem_cons_of_mem x (jsDedupAux_sub (x :: seen) xs a h)

theorem jsDedupAux_not_seen {α : Type} [DecidableEq α] :
    ∀ (seen l : List α), ∀ a ∈ jsDedupAux seen l, a ∉ seen
  | _, [], a, ha => by simp [jsDedupAux] at ha
  | seen, x :: xs, a, ha => by
      rw [jsDedupAux] at ha
      by_cases hx : x ∈ seen
      · rw [if_pos hx] at ha
        exact jsDedupAux_not_seen seen xs a ha
      · rw [if_neg hx] at ha
        rcases List.mem_cons.mp ha with h | h
        · exact h ▸ hx
        · intro hs
          exact jsDedupAux_not_seen (x :: seen) xs a h (List.mem_cons_of_mem x hs)

theorem jsDedupAux_nodup {α : Type} [DecidableEq α] :
    ∀ (seen l : List α), (jsDedupAux seen l).Nodup
  | _, [] => List.nodup_nil
  | seen, x :: xs => by
      rw [jsDedupAux]
      by_cases hx : x ∈ seen
      · rw [if_pos hx]
        exact jsDedupAux_nodup seen xs
      · rw [if_neg hx]
        refine List.nodup_cons.mpr ⟨fun hmem => ?_, jsDedupAux_nodup (x :: seen) xs⟩
        exact jsDedupAux_not_seen (x :: seen) xs x hmem (List.mem_cons_self x seen)

theorem jsDedupAux_eq_self {α : Type} [DecidableEq α] :
    ∀ (seen l : List α), l.Nodup → (∀ a ∈ l, a ∉ seen) → jsDedupAux seen l = l
  | _, [], _, _ => rfl
  | seen, x :: xs, h, hd => by
      rcases List.nodup_cons.mp h with ⟨hx, hxs⟩
      rw [jsDedupAux, if_neg (hd x (List.mem_cons_self x xs))]
      rw [jsDedupAux_eq_self (x :: seen) xs hxs fun a ha => by
        intro hs
        rcases List.mem_cons.mp hs with hax | has
        · exact hx (hax ▸ ha)
        · exact hd a (List.mem_cons_of_mem x ha) has]

theorem jsDedup_sub {α : Type} [DecidableEq α] (l : List α) :
    ∀ a ∈ jsDedup l, a ∈ l :=
  jsDedupAux_sub [] l

theorem jsDedup_nodup {α : Type} [DecidableEq α] (l : List α) :
    (jsDedup l).Nodup :=
  jsDedupAux_nodup [] l

theorem jsDedup_eq_self {α : Type} [DecidableEq α] {l : List α} (h : l.Nodup) :
    jsDedup l = l :=
  jsDedupAux_eq_self [] l h fun a _ => List.not_mem_nil a

/-! ### Trimming is idempotent and commutes with lowercasing -/

theorem dropWhile_eq_cons_false {p : α → Bool} {l t : List α} {a : α}
    (hd : l.dropWhile p = a :: t) : p a = false := by
  induction l with
  | nil => simp at hd
  | cons x xs ih =>
      rw [List.dropWhile_cons] at hd
      by_cases hx : p x = true
      · rw [if_pos hx] at hd
        exact ih hd
      · rw [if_neg hx] at hd
        cases hd
        exact eq_false_of_ne_true hx

theorem dropWhile_idem (p : α → Bool) (l : List α) :
    (l.dropWhile p).dropWhile p = l.dropWhile p := by
  cases hd : l.dropWhile p with
  | nil => rfl
  | cons a t =>
      rw [List.dropWhile_cons, dropWhile_eq_cons_false hd]
      simp

theorem dropWhile_eq_self_of_head {p : α → Bool} {l : List α} {a : α}
    (hh : l.head? = some a) (ha : p a = false) : l.dropWhile p = l := by
  cases l with
  | nil => rfl
  | cons x t =>
      simp only [List.head?_cons, Option.some_inj] at hh
      subst hh
      rw [List.dropWhile_cons, ha]
      simp

theorem trimChars_head_not_ws {l : List Char} {a : Char} (hh : (trimChars l).head? = some a) :
    a.isWhitespace = false := by
  unfold trimChars at hh
  rw [List.head?_reverse] at hh
  rcases List.dropWhile_suffix (l := (l.dropWhile Char.isWhitespace).reverse)
      Char.isWhitespace with ⟨pre, hpre⟩
  have hlast : ((l.dropWhile Char.isWhitespace).reverse.dropWhile
      Char.isWhitespace).getLast? = (l.dropWhile Char.isWhitespace).head? := by
    conv_rhs => rw [← List.getLast?_reverse (l.dropWhile Char.isWhitespace), ← hpre]
    rw [List.getLast?_append, hh]
    rfl
  rw [hlast] at hh
  cases hy : l.dropWhile Char.isWhitespace with
  | nil => rw [hy] at hh; simp at hh
  | cons b t =>
      rw [hy] at hh
      simp only [List.head?_cons, Option.some_inj] at hh
      exact hh ▸ dropWhile_eq_cons_false hy

theorem trimChars_idem (l : List Char) : trimChars (trimChars l) = trimChars l := by
  have h1 : (trimChars l).dropWhile Char.isWhitespace = trimChars l := by
    cases hh : (trimChars l).head? with
    | none =>
        have : trimChars l = [] := by
          cases hl : trimChars l
          · rfl
          · rw [hl] at hh; simp at hh
        rw [this]; rfl
    | some a => exact dropWhile_eq_self_of_head hh (trimChars_head_not_ws hh)
  show ((((trimChars l).dropWhile Char.isWhitespace).reverse).dropWhile
      Char.isWhitespace).reverse = trimChars l
  rw [h1]
  unfold trimChars
  rw [List.reverse_reverse, dropWhile_idem]

theorem trimChars_map_toLower (l : List Char) :
    trimChars (l.map Char.toLower) = (trimChars l).map Char.toLower := by
  have hcomp : (Char.isWhitespace ∘ Char.toLower) = Char.isWhitespace :=
    funext fun c => isWhitespace_toLower c
  unfold trimChars
  rw [List.dropWhile_map, hcomp, ← List.map_reverse, List.dropWhile_map, hcomp,
    ← List.map_reverse]

theorem mem_trimChars {l : List Char} {a : Char} (h : a ∈ trimChars l) : a ∈ l := by
  unfold trimChars at h
  rw [List.mem_reverse] at h
  have h2 := (List.dropWhile_sublist Char.isWhitespace).mem h
  rw [List.mem_reverse] at h2
  exact (List.dropWhile_sublist Char.isWhitespace).mem h2

theorem cleanTag_fixed (x : List Char) : cleanTag (cleanTag x) = cleanTag x := by
  unfold cleanTag
  rw [trimChars_map_toLower, trimChars_idem, List.map_map]
  have : (Char.toLower ∘ Char.toLower) = Char.toLower := funext fun c => toLower_toLower c
  rw [this]

/-! ### splitOnComma and joinComma are mutually inverse on comma-free parts -/

theorem splitOnComma_ne_nil (l : List Char) : splitOnComma l ≠ [] := by
  induction l with
  | nil => simp [splitOnComma]
  | cons c cs ih =>
      rw [splitOnComma]
      by_cases h : c = ','
      · simp [h]
      · rw [if_neg h]
        cases hs : splitOnComma cs with
        | nil => simp
        | cons g gs => simp

theorem mem_splitOnComma_no_comma (l : List Char) :
    ∀ part ∈ splitOnComma l, ',' ∉ part := by
  induction l with
  | nil =>
      intro part hp
      simp [splitOnComma] at hp
      simp [hp]
  | cons c cs ih =>
      intro part hp
      rw [splitOnComma] at hp
      by_cases h : c = ','
      · rw [if_pos h] at hp
        rcases List.mem_cons.mp hp with he | he
        · simp [he]
        · exact ih part he
      · rw [if_neg h] at hp
        cases hs : splitOnComma cs with
        | nil => exact absurd hs (splitOnComma_ne_nil cs)
        | cons g gs =>
            rw [hs] at hp
            rcases List.mem_cons.mp hp with he | he
            · subst he
              intro hmem
              rcases List.mem_cons.mp hmem with he2 | he2
              · exact h he2.symm
              · exact ih g (hs ▸ List.mem_cons_self g gs) he2
            · exact ih part (hs ▸ List.mem_cons_of_mem g he)

theorem splitOnComma_no_comma_single {l : List Char} (h : ',' ∉ l) :
    splitOnComma l = [l] := by
  induction l with
  | nil => rfl
  | cons c cs ih =>
      rw [splitOnComma]
      have hc : ¬ c = ',' := fun he => h (he ▸ List.mem_cons_self c cs)
      rw [if_neg hc, ih (fun hm => h (List.mem_cons_of_mem c hm))]

theorem splitOnComma_append_comma {p : List Char} (rest : List Char) (h : ',' ∉ p) :
    splitOnComma (p ++ ',' :: rest) = p :: splitOnComma rest := by
  induction p with
  | nil => simp [splitOnComma]
  | cons c cs ih =>
      have hc : ¬ c = ',' := fun he => h (he ▸ List.mem_cons_self c cs)
      rw [List.cons_append, splitOnComma, if_neg hc,
        ih (fun hm => h (List.mem_cons_of_mem c hm))]

theorem splitOnComma_joinComma :
    ∀ parts : List (List Char), parts ≠ [] → (∀ p ∈ parts, ',' ∉ p) →
      splitOnComma (joinComma parts) = parts
  | [], h, _ => absurd rfl h
  | [p], _, h2 => by
      rw [joinComma]
      exact splitOnComma_no_comma_single (h2 p (List.mem_singleton_self p))
  | p :: q :: r, _, h2 => by
      rw [joinComma, splitOnComma_append_comma _ (h2 p (List.mem_cons_self p _)),
        splitOnComma_joinComma (q :: r) (List.cons_ne_nil q r)
          (fun x hx => h2 x (List.mem_cons_of_mem p hx))]

/-- Claim C10: for every input string, parseTags returns either none (when no
non-empty tag remains after splitting on commas, trimming and lowercasing)
or a non-empty, duplicate-free, lexicographically sorted list of lowercased,
trimmed, non-empty tags; consequently parseTags is idempotent: applying it
to the comma-join of its own output returns exactly the same list. -/
theorem parseTags_spec (value : List Char) (out : List (List Char))
    (h : parseTags value = some out) :
    out ≠ [] ∧ out.Nodup ∧ List.Sorted lexLe out ∧
    (∀ t ∈ out, t ≠ [] ∧ trimChars t = t ∧ t.map Char.toLower = t) ∧
    parseTags (joinComma out) = some out := by
  unfold parseTags at h
  by_cases he : cleanedTags value = []
  · rw [if_pos he] at h
    exact absurd h (by simp)
  · rw [if_neg he] at h
    simp only [Option.some_inj] at h
    have hmem : ∀ t ∈ out, t ∈ cleanedTags value := by
      intro t ht
      rw [← h] at ht
      exact jsDedup_sub _ t ((List.mem_insertionSort lexLe).mp ht)
    have hprops : ∀ t ∈ out, t ≠ [] ∧ trimChars t = t ∧ t.map Char.toLower = t := by
      intro t ht
      rcases List.mem_filter.mp (hmem t ht) with ⟨hmap, hne⟩
      rcases List.mem_map.mp hmap with ⟨part, _, hpart⟩
      refine ⟨by simpa using hne, ?_, ?_⟩
      · rw [← hpart]
        unfold cleanTag
        rw [← trimChars_map_toLower]
        exact trimChars_idem _
      · rw [← hpart]
        unfold cleanTag
        rw [List.map_map,
          show (Char.toLower ∘ Char.toLower) = Char.toLower from
            funext fun c => toLower_toLower c]
    have hnodup : out.Nodup := by
      rw [← h]
      exact (List.perm_insertionSort lexLe (jsDedup (cleanedTags value))).symm.nodup
        (jsDedup_nodup _)
    have hsorted : List.Sorted lexLe out := by
      rw [← h]
      exact List.sorted_insertionSort lexLe (jsDedup (cleanedTags value))
    have hne_out : out ≠ [] := by
      rw [← h]
      intro hcon
      have hlen := congrArg List.length hcon
      rw [List.length_insertionSort] at hlen
      cases htg : cleanedTags value with
      | nil => exact he htg
      | cons a l =>
          rw [htg, jsDedup] at hlen
          simp [jsDedupAux] at hlen
    have hocomma : ∀ t ∈ out, ',' ∉ t := by
      intro t ht hc
      rcases List.mem_filter.mp (hmem t ht) with ⟨hmap, _⟩
      rcases List.mem_map.mp hmap with ⟨part, hpmem, hpart⟩
      rw [← hpart] at hc
      unfold cleanTag at hc
      rcases List.mem_map.mp hc with ⟨c, hcm, hceq⟩
      have hcc := toLower_eq_comma hceq
      subst hcc
      exact mem_splitOnComma_no_comma value part hpmem (mem_trimChars hcm)
    refine ⟨hne_out, hnodup, hsorted, hprops, ?_⟩
    have hclean : out.map cleanTag = out := by
      have hpt : ∀ t ∈ out, cleanTag t = t := by
        intro t ht
        rcases hprops t ht with ⟨_, htr, hlo⟩
        unfold cleanTag
        rw [htr, hlo]
      calc out.map cleanTag = out.map id := List.map_congr_left hpt
        _ = out := List.map_id out
    have hct : cleanedTags (joinComma out) = out := by
      unfold cleanedTags
      rw [splitOnComma_joinComma out hne_out hocomma, hclean]
      exact List.filter_eq_self.mpr fun a ha => by
        simp only [decide_eq_true_eq]
        exact (hprops a ha).1
    unfold parseTags
    rw [hct, if_neg hne_out, jsDedup_eq_self hnodup,
      List.Sorted.insertionSort_eq hsorted]

theorem parseTags_spec_witness :
    parseTags (" B, a ,b,,A ".toList) = some [['a'], ['b']] ∧
    ([['a'], ['b']] : List (List Char)).Nodup ∧
    List.Sorted lexLe [['a'], ['b']] ∧
    parseTags (joinComma [['a'], ['b']]) = some [['a'], ['b']] :=
  have h : parseTags (" B, a ,b,,A ".toList) = some [['a'], ['b']] := by decide
  ⟨h, (parseTags_spec _ _ h).2.1, (parseTags_spec _ _ h).2.2.1,
    (parseTags_spec _ _ h).2.2.2.2⟩

/-! ### Spec-modelled Knowledge-Base engine

The chunk store, similarity search, archival and upsert operations live in
the backend service, which is not part of this tree (only its web-client
callers and database documentation are).  The definitions below are modelled
from the spec, sections 3, 4.2 and 4.3. -/

/-- An embedding vector.  Vector arithmetic itself never matters for the
properties below, only which chunks carry a vector. -/
abbrev Vec := List ℚ

/-- Modelled from the spec (section 3): one knowledge chunk.  The open
metadata map is represented by the only key the engine reads, the optional
quality score. -/
structure KnowledgeChunk where
  id : Nat
  tenant_id : Nat
  source : String
  position : Nat
  text : String
  content_hash : String
  embedding : Option Vec
  language : Option String
  tags : List String
  quality_score : Option ℚ
  version : Nat
  is_current : Bool
  archived_at : Option Nat
  created_at : Nat
  updated_at : Nat
deriving Repr, DecidableEq

/-- The persistent chunk store, abstracted as the list of all rows. -/
abbrev Store := List KnowledgeChunk

/-- Collapse every run of whitespace into a single space. -/
def squeezeWS : List Char → List Char
  | [] => []
  | [c] => if c.isWhitespace then [' '] else [c]
  | c :: d :: cs =>
      if c.isWhitespace && d.isWhitespace then squeezeWS (d :: cs)
      else (if c.isWhitespace then ' ' else c) :: squeezeWS (d :: cs)

/-- Modelled from the spec (section 4.2): normalize chunk text before
hashing, trimming and collapsing internal whitespace, so that trivial
whitespace differences dedup to the same hash. -/
def normalizeText (s : String) : String :=
  String.mk (trimChars (squeezeWS s.toList))

/-- Modelled from the spec (section 3): the deterministic content hash of
normalized text.  The hash function itself is opaque to every property, so
it is modelled as the normalized text, a collision-free fingerprint. -/
def contentHash (s : String) : String :=
  normalizeText s

/-- One incoming chunk of an upsert request (KBChunkIn in api.ts). -/
structure ChunkIn where
  text : String
  language : Option String
  tags : List String
  quality_score : Option ℚ
deriving Repr, DecidableEq

/-- The summary returned by upsert (KBUpsertSummary in api.ts). -/
structure UpsertSummary where
  created : Nat
  updated : Nat
  skipped : Nat
deriving Repr, DecidableEq

/-- Does the tenant already hold a current chunk with this content hash? -/
def hasCurrentHash (st : Store) (tenant : Nat) (h : String) : Bool :=
  st.any fun c => decide (c.tenant_id = tenant ∧ c.content_hash = h ∧ c.is_current = true)

/-- Modelled from the spec (section 4.2): the current chunk with the same
logical identity, namely the same tenant, source and stable key; the stable
key is the position of the chunk within its source. -/
def findIdentity (st : Store) (tenant : Nat) (src : String) (pos : Nat) :
    Option KnowledgeChunk :=
  st.find? fun c =>
    decide (c.tenant_id = tenant ∧ c.source = src ∧ c.position = pos ∧ c.is_current = true)

/-- A freshly inserted chunk row. -/
def mkChunk (nid tenant : Nat) (src : String) (pos : Nat) (cin : ChunkIn)
    (h : String) (emb : Option Vec) (ver : Nat) (now : Nat) : KnowledgeChunk :=
  { id := nid, tenant_id := tenant, source := src, position := pos, text := cin.text,
    content_hash := h, embedding := emb, language := cin.language, tags := cin.tags,
    quality_score := cin.quality_score, version := ver, is_current := true,
    archived_at := none, created_at := now, updated_at := now }

/-- Modelled from the spec (section 4.2): process one incoming chunk.  If a
current chunk with the same hash exists for the tenant the input is skipped;
else if a current chunk with the same logical identity exists it is marked
non-current and a successor version is inserted; otherwise a fresh chunk is
created.  Embedding computation is triggered through embedFn and its failure
(none) never blocks storage of the text. -/
def upsertOne (embedFn : String → Option Vec) (tenant : Nat) (src : String) (now : Nat)
    (acc : Store × Nat × UpsertSummary) (pos : Nat) (cin : ChunkIn) :
    Store × Nat × UpsertSummary :=
  let st := acc.1
  let nid := acc.2.1
  let sum := acc.2.2
  let h := contentHash cin.text
  if hasCurrentHash st tenant h then
    (st, nid, { sum with skipped := sum.skipped + 1 })
  else
    match findIdentity st tenant src pos with
    | some old =>
        let st1 := st.map fun c =>
          if c.tenant_id = tenant ∧ c.id = old.id then
            { c with is_current := false, updated_at := now }
          else c
        (st1 ++ [mkChunk nid tenant src pos cin h (embedFn cin.text) (old.version + 1) now],
          nid + 1, { sum with updated := sum.updated + 1 })
    | none =>
        (st ++ [mkChunk nid tenant src pos cin h (embedFn cin.text) 1 now],
          nid + 1, { sum with created := sum.created + 1 })

/-- The fold of upsertOne over the request chunks, with running position. -/
def upsertGo (embedFn : String → Option Vec) (tenant : Nat) (src : String) (now : Nat) :
    Nat → Store × Nat × UpsertSummary → List ChunkIn → Store × Nat × UpsertSummary
  | _, acc, [] => acc
  | pos, acc, cin :: rest =>
      upsertGo embedFn tenant src now (pos + 1) (upsertOne embedFn tenant src now acc pos cin) rest

/-- Modelled from the spec (sections 4.2 and 6): upsert_knowledge.  Takes the
store, the next fresh id and the clock besides the request, and returns the
new store, the next fresh id and the UpsertSummary. -/
def upsert (embedFn : String → Option Vec) (st : Store) (nextId now tenant : Nat)
    (src : String) (chunks : List ChunkIn) : Store × Nat × UpsertSummary :=
  upsertGo embedFn tenant src now 0 (st, nextId, ⟨0, 0, 0⟩) chunks

/-- The search filters of search_knowledge (KBSearchRequest in api.ts). -/
structure SearchFilters where
  source : Option String
  tags : Option (List String)
  language : Option String
  include_archived : Bool
deriving Repr, DecidableEq

/-- The all-pass filter set: no source, tag or language restriction and no
archived chunks. -/
def noFilters : SearchFilters :=
  ⟨none, none, none, false⟩

/-- Modelled from the spec (section 4.3): source and language match exactly
when given; the tags filter is an any-of match against the chunk tag set. -/
def matchesFilters (f : SearchFilters) (c : KnowledgeChunk) : Bool :=
  (match f.source with | none => true | some s => decide (c.source = s)) &&
  (match f.tags with
   | none => true
   | some ts => ts.any fun t => decide (t ∈ c.tags)) &&
  (match f.language with | none => true | some lg => decide (c.language = some lg))

/-- Modelled from the spec (section 4.3): the candidate set of a search is
every chunk of the tenant that is current, carries an embedding, is not
archived unless archived chunks were requested, and passes the filters. -/
def candidates (st : Store) (tenant : Nat) (f : SearchFilters) : Store :=
  st.filter fun c =>
    decide (c.tenant_id = tenant) && c.is_current && c.embedding.isSome &&
    (f.include_archived || decide (c.archived_at = none)) && matchesFilters f c

/-- A search result row (RetrievalHit in the spec, KBSearchHit in api.ts). -/
structure RetrievalHit where
  chunk_id : Nat
  source : String
  text : String
  similarity : ℚ
  score : ℚ
  quality_score : Option ℚ
  updated_at : Nat
deriving Repr, DecidableEq

/-- Clamp a rational to the unit interval. -/
def clamp01 (x : ℚ) : ℚ :=
  max 0 (min 1 x)

/-- Modelled from the spec (section 4.3): the score starts equal to the
similarity and, when the metadata carries a quality score, becomes the fixed
linear combination 0.8 times similarity plus 0.2 times quality score,
clamped to the unit interval. -/
def boostScore (sim : ℚ) (q : Option ℚ) : ℚ :=
  match q with
  | none => sim
  | some qs => clamp01 (sim * (4 / 5) + qs * (1 / 5))

/-- Build the hit for one candidate chunk, given the similarity measure the
vector index produced for the query vector. -/
def mkHit (simFn : Vec → Vec → ℚ) (qv : Vec) (c : KnowledgeChunk) : RetrievalHit :=
  let sim := simFn qv (c.embedding.getD [])
  { chunk_id := c.id, source := c.source, text := c.text, similarity := sim,
    score := boostScore sim c.quality_score, quality_score := c.quality_score,
    updated_at := c.updated_at }

/-- Modelled from the spec (section 4.3): the ranking order, by descending
similarity, ties by the more recent update, then by the lower id. -/
def rankLE (a b : RetrievalHit) : Prop :=
  b.similarity < a.similarity ∨
    (a.similarity = b.similarity ∧
      (b.updated_at < a.updated_at ∨
        (a.updated_at = b.updated_at ∧ a.chunk_id ≤ b.chunk_id)))

instance : DecidableRel rankLE := fun a b => by
  unfold rankLE
  infer_instance

/-- The configured default result count of search_knowledge, the value the
client also sends (api.ts line 136). -/
def defaultLimit : Nat := 5

/-- The configured maximum result count of search_knowledge. -/
def maxLimit : Nat := 50

/-- Modelled from the spec (section 4.3): a missing limit becomes the
default, an out-of-range limit is clamped into range, never rejected. -/
def effectiveLimit : Option Nat → Nat
  | none => defaultLimit
  | some l => min l maxLimit

/-- Modelled from the spec (sections 4.3 and 6): search_knowledge.  The
query text enters as the similarity measure simFn applied to its query
vector qv, keeping the property statements independent of the embedding
backend and of the distance of the vector index. -/
def search (simFn : Vec → Vec → ℚ) (qv : Vec) (st : Store) (tenant : Nat)
    (f : SearchFilters) (limit : Option Nat) : List RetrievalHit :=
  (List.insertionSort rankLE ((candidates st tenant f).map (mkHit simFn qv))).take
    (effectiveLimit limit)

/-- The selector of archive_knowledge (KBArchiveRequest in api.ts). -/
structure ArchiveSelector where
  ids : Option (List Nat)
  source : Option String
  before : Option Nat
deriving Repr, DecidableEq

/-- Does a chunk of this tenant match the archive selector? -/
def selMatches (tenant : Nat) (sel : ArchiveSelector) (c : KnowledgeChunk) : Bool :=
  decide (c.tenant_id = tenant) &&
  (match sel.ids with | none => true | some ids => decide (c.id ∈ ids)) &&
  (match sel.source with | none => true | some s => decide (c.source = s)) &&
  (match sel.before with | none => true | some b => decide (c.created_at < b))

/-- Modelled from the spec (section 4.2): archive_knowledge flips archived_at
(set to the clock, or cleared) on every matching chunk of the tenant and
reports how many chunks matched; it never deletes data. -/
def archive (st : Store) (tenant : Nat) (sel : ArchiveSelector) (archived : Bool)
    (now : Nat) : Store × Nat :=
  (st.map fun c =>
      if selMatches tenant sel c then
        { c with archived_at := if archived then some now else none }
      else c,
    (st.filter (selMatches tenant sel)).length)

/-! ### Spec-modelled Agent Orchestrator and Escalation Policy -/

/-- The failures a backend call can surface after its own retries
(spec section 7). -/
inductive AgentError where
  | embeddingUnavailable
  | generationTimeout
  | generationUnavailable
deriving Repr, DecidableEq

/-- Modelled from the spec (sections 4.6 and 4.7): the configuration of the
escalation policy and prompt composer. -/
structure AgentConfig where
  confidence_floor : ℚ
  trigger_terms : List String
  context_budget : Nat
  history_cap : Nat
  model_id : String
deriving Repr, DecidableEq

/-- The result of one orchestration (AgentResult in the spec, AgentResponse
in the client). -/
structure AgentResult where
  content : String
  escalate : Bool
  escalation_reason : Option String
  hits_used : List RetrievalHit
  model_id : String
deriving Repr, DecidableEq

deriving instance DecidableEq for Except

/-- Case-insensitive substring match, the trigger-keyword test of the
escalation policy (spec section 4.6). -/
def containsCI (hay needle : String) : Bool :=
  strContains hay.toLower needle.toLower

/-- Modelled from the spec (section 4.6): the confidence of a retrieval is
the score of the best (top-ranked) hit, and an empty hit list counts as
confidence zero. -/
def bestScore (hits : List RetrievalHit) : ℚ :=
  match hits with
  | [] => 0
  | h :: _ => h.score

/-- Modelled from the spec (section 4.6): escalate with the machine-checkable
reason low_confidence when the best score is below the configured floor,
else with trigger_keyword and the term when a configured trigger term occurs
case-insensitively in the query or the answer, else do not escalate. -/
def decideEscalation (cfg : AgentConfig) (query content : String)
    (hits : List RetrievalHit) : Bool × Option String :=
  if bestScore hits < cfg.confidence_floor then
    (true, some "low_confidence")
  else
    match cfg.trigger_terms.find? (fun t => containsCI query t || containsCI content t) with
    | some t => (true, some ("trigger_keyword:" ++ t))
    | none => (false, none)

/-- Modelled from the spec (section 4.4): keep whole hits while their text
fits the remaining context budget; once the budget is exhausted the
remaining hits are dropped, never truncated mid-chunk. -/
def takeBudget (budget : Nat) : List RetrievalHit → List RetrievalHit
  | [] => []
  | h :: t =>
      if h.text.length ≤ budget then h :: takeBudget (budget - h.text.length) t
      else []

/-- Modelled from the spec (section 4.4): the grounded prompt concatenates
the budgeted hits in ranking order, each annotated with its source, states
explicitly when no knowledge-base context was found, and appends the history
most-recent-last under the turn cap, then the query. -/
def composePrompt (cfg : AgentConfig) (query : String) (hits : List RetrievalHit)
    (history : List String) : String :=
  let ctx :=
    if hits.isEmpty then "No knowledge-base context was found."
    else String.intercalate "\n"
      ((takeBudget cfg.context_budget hits).map fun h => "[" ++ h.source ++ "] " ++ h.text)
  let hist := String.intercalate "\n" (history.drop (history.length - cfg.history_cap))
  ctx ++ "\n" ++ hist ++ "\n" ++ query

/-- The hits the orchestrator retrieves: none when the embedding backend
failed (retrieval is best-effort, spec section 4.7), else the default
search for the tenant. -/
def retrievedHits (simFn : Vec → Vec → ℚ) (st : Store) (tenant : Nat)
    (embedResult : Except AgentError Vec) : List RetrievalHit :=
  match embedResult with
  | Except.error _ => []
  | Except.ok qv => search simFn qv st tenant noFilters none

/-- Modelled from the spec (section 4.7): the agent orchestrator.  The two
backend calls enter as their outcomes after the invoker's own retries: the
embedding of the query and the generation for a given prompt.  An embedding
failure degrades to a zero-context prompt, a generation failure forces
escalation with reason generation_failed, and the orchestration as a whole
never surfaces an error. -/
def answer (cfg : AgentConfig) (simFn : Vec → Vec → ℚ) (st : Store) (tenant : Nat)
    (embedResult : Except AgentError Vec) (genResult : String → Except AgentError String)
    (query : String) (history : List String) : Except AgentError AgentResult :=
  match genResult (composePrompt cfg query (retrievedHits simFn st tenant embedResult) history) with
  | Except.error _ =>
      Except.ok { content := "", escalate := true,
                  escalation_reason := some "generation_failed",
                  hits_used := retrievedHits simFn st tenant embedResult,
                  model_id := cfg.model_id }
  | Except.ok content =>
      Except.ok { content := content,
                  escalate := (decideEscalation cfg query content
                    (retrievedHits simFn st tenant embedResult)).1,
                  escalation_reason := (decideEscalation cfg query content
                    (retrievedHits simFn st tenant embedResult)).2,
                  hits_used := retrievedHits simFn st tenant embedResult,
                  model_id := cfg.model_id }

/-! ### Agent theorems -/

/-- Claim C4: for every AgentResult produced by answer, the escalation reason,
when non-null, is exactly one of the machine-checkable codes low_confidence,
trigger_keyword followed by a configured term, or generation_failed, and is
never free-form prose. -/
theorem answer_reason_codes (cfg : AgentConfig) (simFn : Vec → Vec → ℚ) (st : Store)
    (tenant : Nat) (embedResult : Except AgentError Vec)
    (genResult : String → Except AgentError String) (query : String)
    (history : List String) (r : AgentResult)
    (h : answer cfg simFn st tenant embedResult genResult query history = Except.ok r) :
    r.escalation_reason = none ∨
    r.escalation_reason = some "low_confidence" ∨
    r.escalation_reason = some "generation_failed" ∨
    ∃ t ∈ cfg.trigger_terms, r.escalation_reason = some ("trigger_keyword:" ++ t) := by
  unfold answer at h
  cases hg : genResult (composePrompt cfg query (retrievedHits simFn st tenant embedResult)
      history) with
  | error e =>
      rw [hg] at h
      simp only [Except.ok.injEq] at h
      rw [← h]
      exact Or.inr (Or.inr (Or.inl rfl))
  | ok content =>
      rw [hg] at h
      simp only [Except.ok.injEq] at h
      rw [← h]
      simp only []
      unfold decideEscalation
      by_cases hb : bestScore (retrievedHits simFn st tenant embedResult) <
          cfg.confidence_floor
      · rw [if_pos hb]
        exact Or.inr (Or.inl rfl)
      · rw [if_neg hb]
        cases hf : cfg.trigger_terms.find?
            (fun t => containsCI query t || containsCI content t) with
        | none => exact Or.inl rfl
        | some t =>
            exact Or.inr (Or.inr (Or.inr ⟨t, List.mem_of_find?_eq_some hf, rfl⟩))

theorem answer_reason_codes_witness :
    (answer ⟨1, ["refund"], 1000, 4, "llama"⟩ (fun _ _ => 0) [] 1
        (Except.error AgentError.embeddingUnavailable) (fun _ => Except.ok "hello")
        "please refund me" []
      = Except.ok (AgentResult.mk "hello" true (some "low_confidence") [] "llama")) ∧
    (some "low_confidence" = none ∨ some "low_confidence" = some "low_confidence" ∨
      some "low_confidence" = some "generation_failed" ∨
      ∃ t ∈ ["refund"], some "low_confidence" = some ("trigger_keyword:" ++ t)) := by
  have hrun : answer ⟨1, ["refund"], 1000, 4, "llama"⟩ (fun _ _ => 0) [] 1
      (Except.error AgentError.embeddingUnavailable) (fun _ => Except.ok "hello")
      "please refund me" []
      = Except.ok (AgentResult.mk "hello" true (some "low_confidence") [] "llama") := by
    decide
  exact ⟨hrun, answer_reason_codes _ _ _ _ _ _ _ _ _ hrun⟩

/-- Claim C5: for every well-formed request, answer terminates with an
AgentResult and never surfaces an error to the caller; in particular, when
the generation backend fails after exhausting retries, the result has
escalate true and reason generation_failed instead of an error. -/
theorem answer_never_fails (cfg : AgentConfig) (simFn : Vec → Vec → ℚ) (st : Store)
    (tenant : Nat) (embedResult : Except AgentError Vec)
    (genResult : String → Except AgentError String) (query : String)
    (history : List String) :
    (∃ r : AgentResult,
      answer cfg simFn st tenant embedResult genResult query history = Except.ok r) ∧
    (∀ e : AgentError,
      genResult (composePrompt cfg query (retrievedHits simFn st tenant embedResult)
        history) = Except.error e →
      ∃ r : AgentResult,
        answer cfg simFn st tenant embedResult genResult query history = Except.ok r ∧
        r.escalate = true ∧ r.escalation_reason = some "generation_failed") := by
  unfold answer
  cases hg : genResult (composePrompt cfg query (retrievedHits simFn st tenant embedResult)
      history) with
  | error e =>
      refine ⟨⟨_, rfl⟩, fun e2 _ => ⟨_, rfl, rfl, rfl⟩⟩
  | ok content =>
      refine ⟨⟨_, rfl⟩, fun e2 he2 => absurd he2 (by simp)⟩

theorem answer_never_fails_witness :
    ∃ r : AgentResult,
      answer ⟨1, ["refund"], 1000, 4, "llama"⟩ (fun _ _ => 0) [] 1
        (Except.ok [1]) (fun _ => Except.error AgentError.generationTimeout)
        "hello" [] = Except.ok r ∧
      r.escalate = true ∧ r.escalation_reason = some "generation_failed" :=
  (answer_never_fails ⟨1, ["refund"], 1000, 4, "llama"⟩ (fun _ _ => 0) [] 1
    (Except.ok [1]) (fun _ => Except.error AgentError.generationTimeout)
    "hello" []).2 AgentError.generationTimeout rfl

/-! ### Search theorems -/

theorem mem_search_decomp {simFn : Vec → Vec → ℚ} {qv : Vec} {st : Store} {tenant : Nat}
    {f : SearchFilters} {limit : Option Nat} {hit : RetrievalHit}
    (h : hit ∈ search simFn qv st tenant f limit) :
    ∃ c, c ∈ st ∧ mkHit simFn qv c = hit ∧
      (decide (c.tenant_id = tenant) && c.is_current && c.embedding.isSome &&
        (f.include_archived || decide (c.archived_at = none)) && matchesFilters f c) = true := by
  unfold search at h
  have h1 := List.mem_of_mem_take h
  rw [List.mem_insertionSort] at h1
  rcases List.mem_map.mp h1 with ⟨c, hc, hmk⟩
  rcases List.mem_filter.mp hc with ⟨hcs, hpred⟩
  exact ⟨c, hcs, hmk, hpred⟩

/-- Claim C7: the number of hits search_knowledge returns never exceeds the
requested limit; an omitted limit falls back to the configured default, and
a limit beyond the configured maximum is clamped to the maximum instead of
the call being rejected. -/
theorem search_limit_clamped (simFn : Vec → Vec → ℚ) (qv : Vec) (st : Store)
    (tenant : Nat) (f : SearchFilters) :
    (∀ l : Nat, (search simFn qv st tenant f (some l)).length ≤ l) ∧
    (∀ l : Nat, (search simFn qv st tenant f (some l)).length ≤ maxLimit) ∧
    (search simFn qv st tenant f none).length ≤ defaultLimit ∧
    (∀ l : Nat, effectiveLimit (some l) = min l maxLimit) ∧
    effectiveLimit none = defaultLimit := by
  refine ⟨fun l => ?_, fun l => ?_, ?_, fun l => rfl, rfl⟩
  · exact le_trans (List.length_take_le _ _) (min_le_left l maxLimit)
  · exact le_trans (List.length_take_le _ _) (min_le_right l maxLimit)
  · exact List.length_take_le _ _

/-- Claim C6: every hit search_knowledge returns carries both the raw
similarity the index produced for its chunk and a score; the score equals
the similarity when the chunk has no quality score, and otherwise is the
fixed linear combination of 0.8 times similarity plus 0.2 times quality
score clamped to the unit interval; the boost is a pure function of these
two inputs. -/
theorem search_score_boost (simFn : Vec → Vec → ℚ) (qv : Vec) (st : Store)
    (tenant : Nat) (f : SearchFilters) (limit : Option Nat) :
    ∀ hit ∈ search simFn qv st tenant f limit,
      ∃ c, c ∈ st ∧ hit.chunk_id = c.id ∧ hit.quality_score = c.quality_score ∧
        ∃ emb, c.embedding = some emb ∧ hit.similarity = simFn qv emb ∧
          hit.score = boostScore hit.similarity c.quality_score ∧
          (c.quality_score = none → hit.score = hit.similarity) ∧
          (∀ q : ℚ, c.quality_score = some q →
            hit.score = clamp01 (hit.similarity * (4 / 5) + q * (1 / 5)) ∧
            0 ≤ hit.score ∧ hit.score ≤ 1) := by
  intro hit h
  rcases mem_search_decomp h with ⟨c, hcs, hmk, hpred⟩
  have hemb : c.embedding.isSome = true := by
    simp only [Bool.and_eq_true] at hpred
    exact hpred.1.1.2
  rcases Option.isSome_iff_exists.mp hemb with ⟨emb, hembEq⟩
  refine ⟨c, hcs, ?_, ?_, emb, hembEq, ?_, ?_, ?_, ?_⟩
  · rw [← hmk]; rfl
  · rw [← hmk]; rfl
  · rw [← hmk]
    show (mkHit simFn qv c).similarity = simFn qv emb
    unfold mkHit
    rw [hembEq]
    rfl
  · rw [← hmk]
    show (mkHit simFn qv c).score = boostScore (mkHit simFn qv c).similarity c.quality_score
    rfl
  · intro hq
    rw [← hmk]
    show (mkHit simFn qv c).score = (mkHit simFn qv c).similarity
    unfold mkHit boostScore
    rw [hq]
  · intro q hq
    refine ⟨?_, ?_, ?_⟩
    · rw [← hmk]
      show (mkHit simFn qv c).score =
        clamp01 ((mkHit simFn qv c).similarity * (4 / 5) + q * (1 / 5))
      unfold mkHit boostScore
      rw [hq]
    · rw [← hmk]
      show 0 ≤ (mkHit simFn qv c).score
      unfold mkHit boostScore
      rw [hq]
      exact le_max_left 0 _
    · rw [← hmk]
      show (mkHit simFn qv c).score ≤ 1
      unfold mkHit boostScore
      rw [hq]
      exact max_le (by norm_num) (min_le_left 1 _)

theorem search_score_boost_witness :
    ∃ c, c ∈ [KnowledgeChunk.mk 10 7 "faq" 0 "reset" "reset" (some [1]) none [] none
        1 true none 0 0] ∧
      (RetrievalHit.mk 10 "faq" "reset" 1 1 none 0).chunk_id = c.id ∧
      (RetrievalHit.mk 10 "faq" "reset" 1 1 none 0).quality_score = c.quality_score ∧
      ∃ emb, c.embedding = some emb ∧
        (RetrievalHit.mk 10 "faq" "reset" 1 1 none 0).similarity = (fun _ _ => (1 : ℚ)) [1] emb ∧
        (RetrievalHit.mk 10 "faq" "reset" 1 1 none 0).score =
          boostScore (RetrievalHit.mk 10 "faq" "reset" 1 1 none 0).similarity c.quality_score ∧
        (c.quality_score = none →
          (RetrievalHit.mk 10 "faq" "reset" 1 1 none 0).score =
            (RetrievalHit.mk 10 "faq" "reset" 1 1 none 0).similarity) ∧
        (∀ q : ℚ, c.quality_score = some q →
          (RetrievalHit.mk 10 "faq" "reset" 1 1 none 0).score =
            clamp01 ((RetrievalHit.mk 10 "faq" "reset" 1 1 none 0).similarity * (4 / 5) +
              q * (1 / 5)) ∧
          0 ≤ (RetrievalHit.mk 10 "faq" "reset" 1 1 none 0).score ∧
          (RetrievalHit.mk 10 "faq" "reset" 1 1 none 0).score ≤ 1) :=
  search_score_boost (fun _ _ => (1 : ℚ)) [1]
    [KnowledgeChunk.mk 10 7 "faq" 0 "reset" "reset" (some [1]) none [] none 1 true none 0 0]
    7 noFilters none (RetrievalHit.mk 10 "faq" "reset" 1 1 none 0) (by decide)

/-! ### Upsert idempotence -/

theorem upsert_single_create (embedFn : String → Option Vec) (st : Store)
    (nid now tenant : Nat) (src : String) (cin : ChunkIn)
    (hh : hasCurrentHash st tenant (contentHash cin.text) = false)
    (hi : findIdentity st tenant src 0 = none) :
    upsert embedFn st nid now tenant src [cin] =
      (st ++ [mkChunk nid tenant src 0 cin (contentHash cin.text) (embedFn cin.text) 1 now],
        nid + 1, UpsertSummary.mk 1 0 0) := by
  simp [upsert, upsertGo, upsertOne, hh, hi]

/-- Claim C3: for every tenant and source-text pair, the first upsert of the
pair (no current chunk with its hash and no prior version of its logical
identity) returns created one, updated zero, skipped zero, and an
immediately repeated upsert of the identical pair returns created zero and
skipped one while leaving the store and the id counter unchanged. -/
theorem upsert_idempotent (embedFn : String → Option Vec) (st : Store)
    (nid now now2 tenant : Nat) (src : String) (cin : ChunkIn)
    (hh : hasCurrentHash st tenant (contentHash cin.text) = false)
    (hi : findIdentity st tenant src 0 = none) :
    (upsert embedFn st nid now tenant src [cin]).2.2 = UpsertSummary.mk 1 0 0 ∧
    upsert embedFn (upsert embedFn st nid now tenant src [cin]).1
        (upsert embedFn st nid now tenant src [cin]).2.1 now2 tenant src [cin] =
      ((upsert embedFn st nid now tenant src [cin]).1,
        (upsert embedFn st nid now tenant src [cin]).2.1, UpsertSummary.mk 0 0 1) := by
  have h1 := upsert_single_create embedFn st nid now tenant src cin hh hi
  refine ⟨by rw [h1], ?_⟩
  rw [h1]
  have h2 : hasCurrentHash
      (st ++ [mkChunk nid tenant src 0 cin (contentHash cin.text) (embedFn cin.text) 1 now])
      tenant (contentHash cin.text) = true := by
    unfold hasCurrentHash
    rw [List.any_append]
    simp [mkChunk]
  simp [upsert, upsertGo, upsertOne, h2]

theorem upsert_idempotent_witness :
    (upsert (fun _ => some [1]) [] 0 0 1 "faq" [ChunkIn.mk "hello" none [] none]).2.2
      = UpsertSummary.mk 1 0 0 ∧
    upsert (fun _ => some [1])
        (upsert (fun _ => some [1]) [] 0 0 1 "faq" [ChunkIn.mk "hello" none [] none]).1
        (upsert (fun _ => some [1]) [] 0 0 1 "faq" [ChunkIn.mk "hello" none [] none]).2.1
        3 1 "faq" [ChunkIn.mk "hello" none [] none] =
      ((upsert (fun _ => some [1]) [] 0 0 1 "faq" [ChunkIn.mk "hello" none [] none]).1,
        (upsert (fun _ => some [1]) [] 0 0 1 "faq" [ChunkIn.mk "hello" none [] none]).2.1,
        UpsertSummary.mk 0 0 1) :=
  upsert_idempotent (fun _ => some [1]) [] 0 0 3 1 "faq" (ChunkIn.mk "hello" none [] none)
    (by decide) (by decide)

/-! ### Archived exclusion -/

/-- Claim C2: after archive_knowledge on the ids selector containing X (run
under the tenant that owns every chunk with id X), a search whose filters do
not request archived chunks never returns X, while the chunk data survives:
the store keeps its length, every row is unchanged apart from archived_at,
and each matched row now carries archived_at set to the clock. -/
theorem archive_excludes (st : Store) (tenant X now : Nat)
    (hten : ∀ c ∈ st, c.id = X → c.tenant_id = tenant) :
    (archive st tenant (ArchiveSelector.mk (some [X]) none none) true now).1.length
      = st.length ∧
    ((archive st tenant (ArchiveSelector.mk (some [X]) none none) true now).1.map
        (fun c => { c with archived_at := none }) =
      st.map fun c => { c with archived_at := none }) ∧
    (∀ c ∈ st, selMatches tenant (ArchiveSelector.mk (some [X]) none none) c = true →
      { c with archived_at := some now } ∈
        (archive st tenant (ArchiveSelector.mk (some [X]) none none) true now).1) ∧
    (∀ (simFn : Vec → Vec → ℚ) (qv : Vec) (t2 : Nat) (f : SearchFilters)
        (limit : Option Nat),
      f.include_archived = false →
      ∀ hit ∈ search simFn qv
          (archive st tenant (ArchiveSelector.mk (some [X]) none none) true now).1
          t2 f limit,
        hit.chunk_id ≠ X) := by
  refine ⟨?_, ?_, ?_, ?_⟩
  · unfold archive
    exact List.length_map st _
  · unfold archive
    rw [List.map_map]
    apply List.map_congr_left
    intro c _
    show (fun c => { c with archived_at := none })
        (if selMatches tenant (ArchiveSelector.mk (some [X]) none none) c = true then
          { c with archived_at := some now } else c) =
      { c with archived_at := none }
    by_cases hs : selMatches tenant (ArchiveSelector.mk (some [X]) none none) c = true
    · rw [if_pos hs]
    · rw [if_neg hs]
  · intro c hc hs
    unfold archive
    have he : (fun c =>
        if selMatches tenant (ArchiveSelector.mk (some [X]) none none) c = true then
          { c with archived_at := some now } else c) c
        = { c with archived_at := some now } := by
      simp only []
      rw [if_pos hs]
    exact he ▸ List.mem_map_of_mem _ hc
  · intro simFn qv t2 f limit hinc hit hmem heq
    rcases mem_search_decomp hmem with ⟨c', hcs, hmk, hpred⟩
    simp only [Bool.and_eq_true] at hpred
    have harch : c'.archived_at = none := by
      have h4 := hpred.1.2
      rw [hinc] at h4
      simpa using h4
    unfold archive at hcs
    rcases List.mem_map.mp hcs with ⟨c, hcst, hmape⟩
    have hid : c'.id = c.id := by
      rw [← hmape]
      by_cases hs : selMatches tenant (ArchiveSelector.mk (some [X]) none none) c = true
      · rw [if_pos hs]
      · rw [if_neg hs]
    have hidX : c.id = X := by
      rw [← hid]
      rw [← hmk] at heq
      exact heq
    have hct : c.tenant_id = tenant := hten c hcst hidX
    have hsel : selMatches tenant (ArchiveSelector.mk (some [X]) none none) c = true := by
      unfold selMatches
      simp [hct, hidX]
    rw [← hmape, if_pos hsel] at harch
    simp at harch

theorem archive_excludes_witness :
    (archive [KnowledgeChunk.mk 5 3 "faq" 0 "txt" "txt" (some [1]) none [] none
        1 true none 0 0] 3 (ArchiveSelector.mk (some [5]) none none) true 9).1.length
      = [KnowledgeChunk.mk 5 3 "faq" 0 "txt" "txt" (some [1]) none [] none
        1 true none 0 0].length ∧
    search (fun _ _ => (1 : ℚ)) [1]
        (archive [KnowledgeChunk.mk 5 3 "faq" 0 "txt" "txt" (some [1]) none [] none
          1 true none 0 0] 3 (ArchiveSelector.mk (some [5]) none none) true 9).1
        3 noFilters none = [] ∧
    search (fun _ _ => (1 : ℚ)) [1]
        (archive [KnowledgeChunk.mk 5 3 "faq" 0 "txt" "txt" (some [1]) none [] none
          1 true none 0 0] 3 (ArchiveSelector.mk (some [5]) none none) true 9).1
        3 (SearchFilters.mk none none none true) none =
      [RetrievalHit.mk 5 "faq" "txt" 1 1 none 0] :=
  ⟨(archive_excludes [KnowledgeChunk.mk 5 3 "faq" 0 "txt" "txt" (some [1]) none [] none
      1 true none 0 0] 3 5 9 (by decide)).1, by decide, by decide⟩

/-! ### Tenant isolation -/

theorem candidates_eq_of_filter_eq {st1 st2 : Store} (tenant : Nat) (f : SearchFilters)
    (h : st1.filter (fun c => decide (c.tenant_id = tenant)) =
      st2.filter fun c => decide (c.tenant_id = tenant)) :
    candidates st1 tenant f = candidates st2 tenant f := by
  have key : ∀ st : Store, candidates st tenant f =
      (st.filter fun c => decide (c.tenant_id = tenant)).filter
        fun c => c.is_current && c.embedding.isSome &&
          (f.include_archived || decide (c.archived_at = none)) && matchesFilters f c := by
    intro st
    unfold candidates
    rw [List.filter_filter]
    apply List.filter_congr
    intro c _
    cases htc : decide (c.tenant_id = tenant) <;> simp [htc]
  rw [key st1, key st2, h]

theorem filter_tenant_map {t2 : Nat} (g : KnowledgeChunk → KnowledgeChunk)
    (hg : ∀ c : KnowledgeChunk, c.tenant_id = t2 → g c = c)
    (hgt : ∀ c : KnowledgeChunk, (g c).tenant_id = c.tenant_id) :
    ∀ st : Store, (st.map g).filter (fun c => decide (c.tenant_id = t2)) =
      st.filter fun c => decide (c.tenant_id = t2)
  | [] => rfl
  | c :: cs => by
      rw [List.map_cons, List.filter_cons, List.filter_cons]
      by_cases hc : c.tenant_id = t2
      · have h1 : decide ((g c).tenant_id = t2) = true := by
          rw [hgt c]
          exact decide_eq_true hc
        rw [h1, decide_eq_true hc, hg c hc, filter_tenant_map g hg hgt cs]
      · have h1 : decide ((g c).tenant_id = t2) = false := by
          rw [hgt c]
          exact decide_eq_false hc
        rw [h1, decide_eq_false hc]
        simp [filter_tenant_map g hg hgt cs]

theorem upsertOne_filter_tenant {t1 t2 : Nat} (hne : t1 ≠ t2)
    (embedFn : String → Option Vec) (src : String) (now : Nat)
    (acc : Store × Nat × UpsertSummary) (pos : Nat) (cin : ChunkIn) :
    (upsertOne embedFn t1 src now acc pos cin).1.filter
        (fun c => decide (c.tenant_id = t2)) =
      acc.1.filter fun c => decide (c.tenant_id = t2) := by
  unfold upsertOne
  by_cases hh : hasCurrentHash acc.1 t1 (contentHash cin.text) = true
  · rw [if_pos hh]
  · rw [if_neg hh]
    cases hi : findIdentity acc.1 t1 src pos with
    | some old =>
        simp only []
        rw [List.filter_append,
          filter_tenant_map
            (fun c => if c.tenant_id = t1 ∧ c.id = old.id then
              { c with is_current := false, updated_at := now } else c)
            (fun c hc => by
              simp only []
              rw [if_neg]
              intro hand
              exact hne (hand.1.symm.trans hc))
            (fun c => by
              simp only []
              by_cases hcc : c.tenant_id = t1 ∧ c.id = old.id
              · rw [if_pos hcc]
              · rw [if_neg hcc])]
        have hlast : List.filter (fun c => decide (c.tenant_id = t2))
            [mkChunk acc.2.1 t1 src pos cin (contentHash cin.text) (embedFn cin.text)
              (old.version + 1) now] = [] := by
          simp [mkChunk, hne]
        rw [hlast, List.append_nil]
    | none =>
        simp only []
        rw [List.filter_append]
        have hlast : List.filter (fun c => decide (c.tenant_id = t2))
            [mkChunk acc.2.1 t1 src pos cin (contentHash cin.text) (embedFn cin.text)
              1 now] = [] := by
          simp [mkChunk, hne]
        rw [hlast, List.append_nil]

theorem upsertGo_filter_tenant {t1 t2 : Nat} (hne : t1 ≠ t2)
    (embedFn : String → Option Vec) (src : String) (now : Nat) :
    ∀ (chunks : List ChunkIn) (pos : Nat) (acc : Store × Nat × UpsertSummary),
      (upsertGo embedFn t1 src now pos acc chunks).1.filter
          (fun c => decide (c.tenant_id = t2)) =
        acc.1.filter fun c => decide (c.tenant_id = t2)
  | [], _, _ => rfl
  | cin :: rest, pos, acc => by
      rw [upsertGo,
        upsertGo_filter_tenant hne embedFn src now rest (pos + 1)
          (upsertOne embedFn t1 src now acc pos cin),
        upsertOne_filter_tenant hne embedFn src now acc pos cin]

/-- Claim C1: tenant isolation of knowledge search.  An upsert performed
under tenant t1 never changes the outcome of search_knowledge for a
different tenant t2 (the two-run noninterference statement); moreover the
search result for a tenant depends only on that tenant's chunks, and every
returned hit originates from a chunk owned by the searched tenant, so a
chunk created under t1 is never returned for t2. -/
theorem upsert_tenant_isolation (embedFn : String → Option Vec) (st : Store)
    (nextId now t1 : Nat) (src : String) (chunks : List ChunkIn) (t2 : Nat)
    (hne : t1 ≠ t2) (simFn : Vec → Vec → ℚ) (qv : Vec) (f : SearchFilters)
    (limit : Option Nat) :
    search simFn qv (upsert embedFn st nextId now t1 src chunks).1 t2 f limit =
      search simFn qv st t2 f limit ∧
    search simFn qv st t2 f limit =
      search simFn qv (st.filter fun c => decide (c.tenant_id = t2)) t2 f limit ∧
    (∀ hit ∈ search simFn qv (upsert embedFn st nextId now t1 src chunks).1 t2 f limit,
      ∃ c, c ∈ (upsert embedFn st nextId now t1 src chunks).1 ∧
        c.tenant_id = t2 ∧ hit.chunk_id = c.id) := by
  refine ⟨?_, ?_, ?_⟩
  · have hfe : (upsert embedFn st nextId now t1 src chunks).1.filter
        (fun c => decide (c.tenant_id = t2)) =
        st.filter fun c => decide (c.tenant_id = t2) := by
      unfold upsert
      exact upsertGo_filter_tenant hne embedFn src now chunks 0
        (st, nextId, UpsertSummary.mk 0 0 0)
    unfold search
    rw [candidates_eq_of_filter_eq t2 f hfe]
  · have hfe2 : st.filter (fun c => decide (c.tenant_id = t2)) =
        (st.filter fun c => decide (c.tenant_id = t2)).filter
          fun c => decide (c.tenant_id = t2) := by
      rw [List.filter_filter]
      apply List.filter_congr
      intro c _
      cases htc : decide (c.tenant_id = t2) <;> simp [htc]
    unfold search
    rw [candidates_eq_of_filter_eq t2 f hfe2]
  · intro hit h
    rcases mem_search_decomp h with ⟨c, hcs, hmk, hpred⟩
    simp only [Bool.and_eq_true, decide_eq_true_eq] at hpred
    refine ⟨c, hcs, hpred.1.1.1.1, ?_⟩
    rw [← hmk]
    rfl

theorem upsert_tenant_isolation_witness :
    search (fun _ _ => (1 : ℚ)) [1]
        (upsert (fun _ => some [1])
          [KnowledgeChunk.mk 5 2 "faq" 0 "txt" "txt" (some [1]) none [] none 1 true none 0 0]
          10 0 1 "faq" [ChunkIn.mk "hello" none [] none]).1
        2 noFilters none =
      search (fun _ _ => (1 : ℚ)) [1]
        [KnowledgeChunk.mk 5 2 "faq" 0 "txt" "txt" (some [1]) none [] none 1 true none 0 0]
        2 noFilters none ∧
    search (fun _ _ => (1 : ℚ)) [1]
        [KnowledgeChunk.mk 5 2 "faq" 0 "txt" "txt" (some [1]) none [] none 1 true none 0 0]
        2 noFilters none = [RetrievalHit.mk 5 "faq" "txt" 1 1 none 0] :=
  ⟨(upsert_tenant_isolation (fun _ => some [1])
      [KnowledgeChunk.mk 5 2 "faq" 0 "txt" "txt" (some [1]) none [] none 1 true none 0 0]
      10 0 1 "faq" [ChunkIn.mk "hello" none [] none] 2 (by decide)
      (fun _ _ => (1 : ℚ)) [1] noFilters none).1,
    by decide⟩
